import Mathlib

/-!
Shallow embedding of the jira-obsidian-sync program (src/main.rs) and proofs
about its note-merge writer, its rich-text extractor, its Kanban board
builder, and the markup translator described by the specification.

Machine integers do not occur in the modelled code; strings are modelled by
Lean `String` (a wrapper around `List Char`), matching Rust `String` whose
byte-level operations here are all character-aligned.
-/

set_option maxRecDepth 100000

/- ------------------------------------------------------------------ -/
/- Data model, translated from the serde structs in src/main.rs.      -/
/- ------------------------------------------------------------------ -/

structure Config where
  jira_host : String
  jira_user : Option String
  jira_token : String
  obsidian_vault_path : String
  jira_jql : String
deriving DecidableEq

structure JiraStatus where
  name : String
deriving DecidableEq

structure JiraPriority where
  name : String
deriving DecidableEq

structure JiraIssueType where
  name : String
deriving DecidableEq

/-- Rich-text (ADF) node: a type tag, optional children, optional text,
mirroring `struct JiraADFNode` in src/main.rs. -/
inductive JiraADFNode where
  | mk (node_type : String) (content : Option (List JiraADFNode)) (text : Option String)

/-- ADF document root, mirroring `struct JiraADF` in src/main.rs. -/
structure JiraADF where
  content : Option (List JiraADFNode)

structure JiraFields where
  summary : String
  description : Option JiraADF
  status : JiraStatus
  created : String
  priority : Option JiraPriority
  issue_type : JiraIssueType

structure JiraIssue where
  key : String
  fields : JiraFields

/- ------------------------------------------------------------------ -/
/- Rich-text extraction (extract_text_from_adf / extract_text_from_node). -/
/- ------------------------------------------------------------------ -/

/-- Character-level trim, the model of Rust `str::trim`: drop leading and
trailing whitespace characters. -/
def trimChars (l : List Char) : List Char :=
  ((l.dropWhile Char.isWhitespace).reverse.dropWhile Char.isWhitespace).reverse

/-- String-level wrapper for `trimChars`. -/
def rustTrim (s : String) : String :=
  ⟨trimChars s.data⟩

mutual

/-- Model of `extract_text_from_node(node, out)`: append the node's text, then
the children's extraction, then the structural suffix chosen by `node_type`. -/
def extract_text_from_node (node : JiraADFNode) (out : String) : String :=
  match node with
  | .mk node_type content text =>
    let out1 := match text with
      | some t => out ++ t
      | none => out
    let out2 := match content with
      | some cs => extract_nodes cs out1
      | none => out1
    if node_type = "paragraph" then out2 ++ "\n\n"
    else if node_type = "bulletList" ∨ node_type = "orderedList" then out2 ++ "\n"
    else if node_type = "listItem" then out2 ++ "\n- "
    else out2

/-- Fold `extract_text_from_node` over a child list, left to right. -/
def extract_nodes (cs : List JiraADFNode) (out : String) : String :=
  match cs with
  | [] => out
  | c :: rest => extract_nodes rest (extract_text_from_node c out)

end

/-- The accumulated raw text of `extract_text_from_adf` before trimming: each
top-level node is extracted and followed by one newline. -/
def extract_top (cs : List JiraADFNode) (out : String) : String :=
  match cs with
  | [] => out
  | c :: rest => extract_top rest (extract_text_from_node c out ++ "\n")

/-- Raw accumulated text of the ADF document (the `out` variable of
`extract_text_from_adf` just before the final trim/emptiness check). -/
def adfRawText (adf : JiraADF) : String :=
  match adf.content with
  | some cs => extract_top cs ""
  | none => ""

/-- Model of `extract_text_from_adf`: trim the accumulated text; if the trim
is empty return the placeholder, otherwise the trimmed text. Rust's
`is_empty` on the trimmed slice is equality with the empty string. -/
def extract_text_from_adf (adf : JiraADF) : String :=
  if rustTrim (adfRawText adf) = "" then "No description provided."
  else rustTrim (adfRawText adf)

/-- The description string used by `update_issue_file`: extraction when a
description tree is present, the distinct placeholder "No description."
when the field is absent. -/
def renderDescription (d : Option JiraADF) : String :=
  match d with
  | some adf => extract_text_from_adf adf
  | none => "No description."

/- ------------------------------------------------------------------ -/
/- split_once and occurrence counting over character lists.            -/
/- ------------------------------------------------------------------ -/

/-- Model of Rust `str::split_once`: split at the first occurrence of `pat`,
returning the text before and strictly after it. -/
def splitOnceL (pat : List Char) : List Char → Option (List Char × List Char)
  | [] => if pat = [] then some ([], []) else none
  | c :: rest =>
    if pat.isPrefixOf (c :: rest) then some ([], (c :: rest).drop pat.length)
    else
      match splitOnceL pat rest with
      | some (a, b) => some (c :: a, b)
      | none => none

/-- String-level wrapper for `splitOnceL`. -/
def splitOnceStr (s pat : String) : Option (String × String) :=
  match splitOnceL pat.data s.data with
  | some (a, b) => some (⟨a⟩, ⟨b⟩)
  | none => none

/-- Number of (possibly overlapping) occurrence positions of `pat` in a
character list. -/
def countOcc (pat : List Char) : List Char → Nat
  | [] => 0
  | c :: rest => countOcc pat rest + (if pat.isPrefixOf (c :: rest) then 1 else 0)

/-- Containment of a factor: `l` has `pat` somewhere inside it. -/
def containsSub (pat l : List Char) : Prop :=
  ∃ a b, l = a ++ pat ++ b

theorem isPrefixOf_eq_true_iff (p : List Char) :
    ∀ l : List Char, p.isPrefixOf l = true ↔ ∃ t, l = p ++ t := by
  induction p with
  | nil => intro l; simp [List.isPrefixOf]
  | cons a as ih =>
    intro l
    cases l with
    | nil => simp [List.isPrefixOf]
    | cons b bs =>
      simp only [List.isPrefixOf, Bool.and_eq_true, beq_iff_eq, ih bs]
      constructor
      · rintro ⟨rfl, t, rfl⟩; exact ⟨t, rfl⟩
      · rintro ⟨t, h⟩
        injection h with h1 h2
        exact ⟨h1.symm, t, h2⟩

theorem containsSub_cons (pat : List Char) (c : Char) (rest : List Char) :
    containsSub pat (c :: rest) ↔ (∃ t, c :: rest = pat ++ t) ∨ containsSub pat rest := by
  constructor
  · rintro ⟨a, b, h⟩
    cases a with
    | nil => exact .inl ⟨b, h⟩
    | cons a0 a' =>
      injection h with h1 h2
      exact .inr ⟨a', b, h2⟩
  · rintro (⟨t, h⟩ | ⟨a, b, h⟩)
    · exact ⟨[], t, h⟩
    · exact ⟨c :: a, b, by rw [h]; rfl⟩

theorem splitOnceL_eq_none_iff (pat : List Char) :
    ∀ l : List Char, splitOnceL pat l = none ↔ ¬ containsSub pat l := by
  intro l
  induction l with
  | nil =>
    by_cases hp : pat = []
    · subst hp
      simp [splitOnceL, containsSub]
    · simp only [splitOnceL, if_neg hp]
      constructor
      · rintro - ⟨a, b, h⟩
        rcases List.append_eq_nil.mp h.symm with ⟨h1, h2⟩
        exact hp (List.append_eq_nil.mp h1).2
      · intro _; trivial
  | cons c rest ih =>
    by_cases hpre : pat.isPrefixOf (c :: rest)
    · simp only [splitOnceL, if_pos hpre]
      rcases (isPrefixOf_eq_true_iff pat (c :: rest)).mp hpre with ⟨t, ht⟩
      constructor
      · intro h; cases h
      · intro h; exact absurd ((containsSub_cons pat c rest).mpr (.inl ⟨t, ht⟩)) h
    · simp only [splitOnceL, if_neg hpre, containsSub_cons]
      have hnopre : ¬ ∃ t, c :: rest = pat ++ t := by
        intro ⟨t, ht⟩
        exact hpre ((isPrefixOf_eq_true_iff pat (c :: rest)).mpr ⟨t, ht⟩)
      cases hsp : splitOnceL pat rest with
      | none =>
        have hnc : ¬ containsSub pat rest := ih.mp hsp
        constructor
        · rintro - (h | h)
          · exact hnopre h
          · exact hnc h
        · intro _; rfl
      | some ab =>
        constructor
        · intro h; cases h
        · intro h
          exfalso
          apply h
          right
          by_contra hc
          have : (some ab : Option (List Char × List Char)) = none := by
            rw [← hsp]; exact ih.mpr hc
          cases this

theorem splitOnceL_eq_some (pat : List Char) :
    ∀ l a b : List Char, splitOnceL pat l = some (a, b) → l = a ++ pat ++ b := by
  intro l
  induction l with
  | nil =>
    intro a b h
    by_cases hp : pat = []
    · subst hp
      simp only [splitOnceL, if_true, reduceIte, Option.some.injEq, Prod.mk.injEq] at h
      rw [← h.1, ← h.2]; rfl
    · simp only [splitOnceL, if_neg hp] at h
      cases h
  | cons c rest ih =>
    intro a b h
    by_cases hpre : pat.isPrefixOf (c :: rest)
    · simp only [splitOnceL, if_pos hpre, Option.some.injEq, Prod.mk.injEq] at h
      rcases (isPrefixOf_eq_true_iff pat (c :: rest)).mp hpre with ⟨t, ht⟩
      have hdrop : (c :: rest).drop pat.length = t := by
        rw [ht, List.drop_left]
      rw [← h.1, ← h.2, hdrop, ht]
      simp
    · simp only [splitOnceL, if_neg hpre] at h
      cases hsp : splitOnceL pat rest with
      | none => rw [hsp] at h; cases h
      | some ab =>
        rw [hsp] at h
        rcases ab with ⟨a', b'⟩
        simp only [Option.some.injEq, Prod.mk.injEq] at h
        rw [← h.1, ← h.2]
        have := ih a' b' hsp
        simp [this]

theorem splitOnceL_first (pat : List Char) :
    ∀ l a b : List Char, splitOnceL pat l = some (a, b) →
      ∀ a' b' : List Char, l = a' ++ pat ++ b' → a.length ≤ a'.length := by
  intro l
  induction l with
  | nil =>
    intro a b h a' b' _
    by_cases hp : pat = []
    · subst hp
      simp only [splitOnceL, if_true, reduceIte, Option.some.injEq, Prod.mk.injEq] at h
      rw [← h.1]
      exact Nat.zero_le _
    · simp only [splitOnceL, if_neg hp] at h
      cases h
  | cons c rest ih =>
    intro a b h a' b' heq
    by_cases hpre : pat.isPrefixOf (c :: rest)
    · simp only [splitOnceL, if_pos hpre, Option.some.injEq, Prod.mk.injEq] at h
      rw [← h.1]
      exact Nat.zero_le _
    · simp only [splitOnceL, if_neg hpre] at h
      cases hsp : splitOnceL pat rest with
      | none => rw [hsp] at h; cases h
      | some ab =>
        rw [hsp] at h
        rcases ab with ⟨a1, b1⟩
        simp only [Option.some.injEq, Prod.mk.injEq] at h
        cases a' with
        | nil =>
          exfalso
          apply hpre
          apply (isPrefixOf_eq_true_iff pat (c :: rest)).mpr
          exact ⟨b', by simpa using heq⟩
        | cons c0 a1' =>
          injection heq with h1 h2
          have := ih a1 b1 hsp a1' b' h2
          rw [← h.1]
          simpa using Nat.succ_le_succ this

/- ------------------------------------------------------------------ -/
/- The note-preserving writer (update_issue_file).                     -/
/- ------------------------------------------------------------------ -/

/-- The sentinel delimiter literal of `update_issue_file`. -/
def safe_area_delimiter : String := "%% USER_NOTES_START %%"

/-- Initial value of the `user_notes` variable in `update_issue_file`. -/
def default_user_notes : String := "\n- [ ] "

/-- The user-owned region seeded below the sentinel when no prior region is
preserved: a newline (emitted by the body format string right after the
delimiter) followed by the default notes seed. -/
def default_user_region : String := "\n" ++ default_user_notes

/-- The `user_notes` value computed by `update_issue_file`: `none` models a
missing file; for an existing file, the text strictly after the first
occurrence of the delimiter, or the default when the delimiter is absent. -/
def userNotesOf (prior : Option String) : String :=
  match prior with
  | none => default_user_notes
  | some content =>
    match splitOnceStr content safe_area_delimiter with
    | some (_, notes) => notes
    | none => default_user_notes

/-- The frontmatter and the body of the note up to (excluding) the
"## Description" heading. -/
def noteBeforeDescription (config : Config) (issue : JiraIssue) : String :=
  "---\njira_key: " ++ issue.key ++
  "\njira_status: \"" ++ issue.fields.status.name ++
  "\"\njira_url: " ++ ("https://" ++ config.jira_host ++ "/browse/" ++ issue.key) ++
  "\ncreated_at: " ++ issue.fields.created ++
  "\n---\n" ++
  "# " ++ issue.key ++ " " ++ issue.fields.summary ++
  "\n\n**Type**: " ++ issue.fields.issue_type.name ++
  "\n**Priority**: " ++ (match issue.fields.priority with
    | some p => p.name
    | none => "None") ++
  "\n**Status**: " ++ issue.fields.status.name ++
  "\n\n"

/-- Everything `update_issue_file` renders before the sentinel: the
frontmatter followed by the body up to and including the two newlines after
the description. -/
def machineRegionStr (config : Config) (issue : JiraIssue) : String :=
  noteBeforeDescription config issue ++
  "## Description\n" ++ renderDescription issue.fields.description ++
  "\n\n"

/-- The full file content written by `update_issue_file`, given the prior
content of the target file (`none` when the file does not exist): the
frontmatter and body format strings instantiated with the issue's fields,
the delimiter, a newline, and the computed `user_notes`. -/
def update_issue_content (config : Config) (issue : JiraIssue) (prior : Option String) : String :=
  machineRegionStr config issue ++ safe_area_delimiter ++ "\n" ++ userNotesOf prior

theorem string_data_append (a b : String) : (a ++ b).data = a.data ++ b.data := rfl

theorem string_eq_of_data (a b : String) (h : a.data = b.data) : a = b := by
  cases a
  cases b
  exact congrArg String.mk h

theorem string_append_assoc (a b c : String) : a ++ b ++ c = a ++ (b ++ c) := by
  apply string_eq_of_data
  simp only [string_data_append, List.append_assoc]

theorem string_length_eq_data_length (s : String) : s.length = s.data.length := rfl

/-- Concrete configuration used by the evaluated instances below. -/
def cfgEx : Config :=
  ⟨"jira.example.com", none, "tok", "/vault", "jql"⟩

/-- Concrete issue (with an absent description) used by the evaluated
instances below. -/
def issueEx : JiraIssue :=
  ⟨"AB-1", ⟨"Fix bug", none, ⟨"To Do"⟩, "2024-01-01T00:00:00.000+0000",
    some ⟨"High"⟩, ⟨"Task"⟩⟩⟩

/-- Concrete prior file content holding the sentinel followed by user
notes. -/
def priorEx : String := "old stuff" ++ safe_area_delimiter ++ "\nmynotes"

/-- C1: the spec requires re-running the writer on its own output, with
unchanged machine-side input, to reproduce byte-identical contents
(merge idempotence). The code violates this: the body format string emits a
newline between the delimiter and `user_notes`, while the preserved notes
already begin with the newline from the previous write, so every rewrite
inserts one extra newline after the sentinel. Evaluated at a concrete issue:
the first write ends in delimiter + "\n\n- [ ] ", the second write ends in
delimiter + "\n\n\n- [ ] ", and the two contents differ. -/
theorem claim1_merge_not_idempotent :
    update_issue_content cfgEx issueEx none =
      machineRegionStr cfgEx issueEx ++ safe_area_delimiter ++ "\n\n- [ ] " ∧
    update_issue_content cfgEx issueEx (some (update_issue_content cfgEx issueEx none)) =
      machineRegionStr cfgEx issueEx ++ safe_area_delimiter ++ "\n\n\n- [ ] " ∧
    update_issue_content cfgEx issueEx (some (update_issue_content cfgEx issueEx none)) ≠
      update_issue_content cfgEx issueEx none := by
  refine ⟨by decide, by decide, by decide⟩

/-- C2 counterexample: for the prior file `priorEx`, the text strictly after
the first occurrence of the sentinel is "\nmynotes", so the claim predicts
new machine content + sentinel + "\nmynotes"; the writer actually inserts a
further newline after the sentinel, so the produced file differs from the
claimed contents. -/
theorem claim2_counterexample :
    update_issue_content cfgEx issueEx (some priorEx) ≠
      machineRegionStr cfgEx issueEx ++ safe_area_delimiter ++ "\nmynotes" := by
  decide

/-- C2 (amended): for every prior file containing the sentinel, a second
write with new machine content produces exactly
machine region + sentinel + "\n" + preserved notes, where the preserved
notes are the text strictly after the first occurrence of the sentinel in
the prior file (the writer interposes one newline between the sentinel and
the verbatim-preserved region). -/
theorem claim2_preservation_modulo_newline
    (config : Config) (issue : JiraIssue) (prior pre notes : String)
    (h : splitOnceStr prior safe_area_delimiter = some (pre, notes)) :
    prior = pre ++ safe_area_delimiter ++ notes ∧
    (∀ pre2 notes2 : String, prior = pre2 ++ safe_area_delimiter ++ notes2 →
      pre.length ≤ pre2.length) ∧
    update_issue_content config issue (some prior) =
      machineRegionStr config issue ++ safe_area_delimiter ++ "\n" ++ notes := by
  unfold splitOnceStr at h
  cases hsp : splitOnceL safe_area_delimiter.data prior.data with
  | none => rw [hsp] at h; cases h
  | some ab =>
    rw [hsp] at h
    rcases ab with ⟨a, b⟩
    simp only [Option.some.injEq, Prod.mk.injEq] at h
    have hpre : pre = ⟨a⟩ := h.1.symm
    have hnotes : notes = ⟨b⟩ := h.2.symm
    subst hpre hnotes
    refine ⟨?_, ?_, ?_⟩
    · apply string_eq_of_data
      simp only [string_data_append]
      exact splitOnceL_eq_some _ _ _ _ hsp
    · intro pre2 notes2 heq
      have hdata : prior.data = pre2.data ++ safe_area_delimiter.data ++ notes2.data := by
        rw [heq]; simp [string_data_append]
      simp only [string_length_eq_data_length]
      exact splitOnceL_first _ _ _ _ hsp pre2.data notes2.data hdata
    · simp only [update_issue_content, userNotesOf, splitOnceStr, hsp]

/-- C2 witness: the amended statement evaluated at the concrete prior file
`priorEx`. -/
theorem claim2_witness :
    priorEx = "old stuff" ++ safe_area_delimiter ++ "\nmynotes" ∧
    update_issue_content cfgEx issueEx (some priorEx) =
      machineRegionStr cfgEx issueEx ++ safe_area_delimiter ++ "\n" ++ "\nmynotes" := by
  have h := claim2_preservation_modulo_newline cfgEx issueEx priorEx
    "old stuff" "\nmynotes" (by decide)
  exact ⟨h.1, h.2.2⟩

/-- C7: a pre-existing file that does not contain the sentinel anywhere is
discarded wholesale: the write produces exactly
machine region + sentinel + default user region, independently of the prior
content. -/
theorem claim7_fallback_without_sentinel
    (config : Config) (issue : JiraIssue) (prior : String)
    (h : ¬ containsSub safe_area_delimiter.data prior.data) :
    update_issue_content config issue (some prior) =
      machineRegionStr config issue ++ safe_area_delimiter ++ default_user_region := by
  have hnone : splitOnceL safe_area_delimiter.data prior.data = none :=
    (splitOnceL_eq_none_iff _ _).mpr h
  simp only [update_issue_content, userNotesOf, splitOnceStr, hnone, default_user_region,
    string_append_assoc]

/-- C7 witness: the fallback evaluated on a concrete sentinel-free prior
file. -/
theorem claim7_witness :
    update_issue_content cfgEx issueEx (some "legacy note body") =
      machineRegionStr cfgEx issueEx ++ safe_area_delimiter ++ default_user_region :=
  claim7_fallback_without_sentinel cfgEx issueEx "legacy note body"
    ((splitOnceL_eq_none_iff _ _).mp (by decide))

/- ------------------------------------------------------------------ -/
/- Sentinel occurrence counting (claim C5).                            -/
/- ------------------------------------------------------------------ -/

theorem countOcc_append_head_free (c : Char) (p : List Char) (rest : List Char) :
    ∀ M : List Char, c ∉ M → countOcc (c :: p) (M ++ rest) = countOcc (c :: p) rest := by
  intro M
  induction M with
  | nil => intro _; rfl
  | cons m M' ih =>
    intro hnm
    have hmne : ¬ (c ∈ M') := fun h => hnm (List.mem_cons_of_mem m h)
    have hcne : c ≠ m := fun h => hnm (h ▸ List.mem_cons_self m M')
    have hp : (c :: p).isPrefixOf (m :: (M' ++ rest)) = false := by
      simp only [List.isPrefixOf, Bool.and_eq_false_iff]
      left
      exact beq_eq_false_iff_ne.mpr hcne
    rw [List.cons_append, countOcc, hp]
    simpa using ih hmne

theorem countOcc_eq_zero_head_free (c : Char) (p : List Char) :
    ∀ l : List Char, c ∉ l → countOcc (c :: p) l = 0 := by
  intro l
  induction l with
  | nil => intro _; rfl
  | cons m l' ih =>
    intro hnm
    have hmne : ¬ (c ∈ l') := fun h => hnm (List.mem_cons_of_mem m h)
    have hcne : c ≠ m := fun h => hnm (h ▸ List.mem_cons_self m l')
    have hp : (c :: p).isPrefixOf (m :: l') = false := by
      simp only [List.isPrefixOf, Bool.and_eq_false_iff]
      left
      exact beq_eq_false_iff_ne.mpr hcne
    rw [countOcc, hp]
    simpa using ih hmne

/-- Scanning the sentinel itself followed by a newline and arbitrary text
finds exactly the boundary occurrence in that region: no proper suffix of
the sentinel matches it again, whatever follows. -/
theorem countOcc_delim_boundary (u : List Char) :
    countOcc safe_area_delimiter.data (safe_area_delimiter.data ++ '\n' :: u) =
      countOcc safe_area_delimiter.data u + 1 := rfl

theorem delim_head_cons :
    safe_area_delimiter.data = '%' :: safe_area_delimiter.data.tail := by decide

/-- Concrete prior file whose preserved user region itself contains the
sentinel string. -/
def priorEx2 : String :=
  "x" ++ safe_area_delimiter ++ " keep " ++ safe_area_delimiter ++ " tail"

/-- C5 counterexample: the claim quantifies over all preserved user-region
texts, including ones containing the sentinel; for the prior file
`priorEx2` the preserved region contains the sentinel, and the written file
contains the sentinel line twice, not exactly once. -/
theorem claim5_counterexample :
    countOcc safe_area_delimiter.data
        (update_issue_content cfgEx issueEx (some priorEx2)).data = 2 ∧
    countOcc safe_area_delimiter.data
        (update_issue_content cfgEx issueEx (some priorEx2)).data ≠ 1 := by
  refine ⟨by decide, by decide⟩

/-- C5 (amended): the sentinel always sits at the machine/user boundary of
the output, and it occurs in the output exactly once provided neither the
machine-rendered region nor the preserved user region contains the
delimiter character of the sentinel; preserved text that itself contains
the sentinel (as in the counterexample) duplicates it. -/
theorem claim5_sentinel_once
    (config : Config) (issue : JiraIssue) (prior : Option String)
    (hm : '%' ∉ (machineRegionStr config issue).data)
    (hu : '%' ∉ (userNotesOf prior).data) :
    update_issue_content config issue prior =
      machineRegionStr config issue ++ safe_area_delimiter ++
        ("\n" ++ userNotesOf prior) ∧
    countOcc safe_area_delimiter.data
        (update_issue_content config issue prior).data = 1 := by
  constructor
  · simp [update_issue_content, string_append_assoc]
  · have hdata : (update_issue_content config issue prior).data =
        (machineRegionStr config issue).data ++
          (safe_area_delimiter.data ++ '\n' :: (userNotesOf prior).data) := by
      simp [update_issue_content, string_data_append, List.append_assoc]
    rw [hdata]
    rw [delim_head_cons]
    rw [countOcc_append_head_free _ _ _ _ hm]
    rw [← delim_head_cons]
    rw [countOcc_delim_boundary]
    rw [delim_head_cons]
    rw [countOcc_eq_zero_head_free _ _ _ hu]

/-- C5 witness: the amended statement evaluated at the concrete prior file
`priorEx`, whose machine region and preserved notes avoid the delimiter
character. -/
theorem claim5_witness :
    countOcc safe_area_delimiter.data
        (update_issue_content cfgEx issueEx (some priorEx)).data = 1 :=
  (claim5_sentinel_once cfgEx issueEx (some priorEx) (by decide) (by decide)).2

/- ------------------------------------------------------------------ -/
/- Kanban board generation (generate_kanban_board).                    -/
/- ------------------------------------------------------------------ -/

/-- Lexicographic comparison of character lists by code point, the model of
Rust's byte-wise `Vec::sort` on UTF-8 strings (UTF-8 byte order agrees with
code-point order). -/
def chListLe : List Char → List Char → Bool
  | [], _ => true
  | _ :: _, [] => false
  | a :: as, b :: bs =>
    if a.toNat < b.toNat then true
    else if b.toNat < a.toNat then false
    else chListLe as bs

/-- String order used by `statuses.sort()`. -/
def statusLe (a b : String) : Prop := chListLe a.data b.data = true

instance : DecidableRel statusLe := fun a b =>
  inferInstanceAs (Decidable (chListLe a.data b.data = true))

theorem char_toNat_inj (a b : Char) (h : a.toNat = b.toNat) : a = b := by
  apply Char.ext
  apply UInt32.ext
  exact h

theorem chListLe_total : ∀ a b : List Char, chListLe a b = true ∨ chListLe b a = true := by
  intro a
  induction a with
  | nil => intro b; left; rfl
  | cons x xs ih =>
    intro b
    cases b with
    | nil => right; rfl
    | cons y ys =>
      rcases Nat.lt_trichotomy x.toNat y.toNat with hlt | heq | hgt
      · left
        simp [chListLe, hlt]
      · rcases ih ys with h | h
        · left
          simp [chListLe, heq, h]
        · right
          simp [chListLe, heq.symm, h]
      · right
        simp [chListLe, hgt]

theorem chListLe_trans :
    ∀ a b c : List Char, chListLe a b = true → chListLe b c = true → chListLe a c = true := by
  intro a
  induction a with
  | nil => intro b c _ _; rfl
  | cons x xs ih =>
    intro b c hab hbc
    cases b with
    | nil => simp [chListLe] at hab
    | cons y ys =>
      cases c with
      | nil => simp [chListLe] at hbc
      | cons z zs =>
        simp only [chListLe] at hab hbc ⊢
        rcases Nat.lt_trichotomy x.toNat y.toNat with hxy | hxy | hxy <;>
          rcases Nat.lt_trichotomy y.toNat z.toNat with hyz | hyz | hyz <;>
            simp [hxy, hyz, Nat.lt_asymm, Nat.lt_irrefl] at hab hbc ⊢ <;>
              first
                | omega
                | (exact ih ys zs (by simpa using hab) (by simpa using hbc))

theorem chListLe_antisymm :
    ∀ a b : List Char, chListLe a b = true → chListLe b a = true → a = b := by
  intro a
  induction a with
  | nil =>
    intro b _ hba
    cases b with
    | nil => rfl
    | cons y ys => simp [chListLe] at hba
  | cons x xs ih =>
    intro b hab hba
    cases b with
    | nil => simp [chListLe] at hab
    | cons y ys =>
      simp only [chListLe] at hab hba
      rcases Nat.lt_trichotomy x.toNat y.toNat with hxy | hxy | hxy
      · simp [hxy, Nat.lt_asymm hxy] at hba
      · have hx : x = y := char_toNat_inj _ _ hxy
        subst hx
        simp only [Nat.lt_irrefl, if_false, reduceIte] at hab hba
        rw [ih ys hab hba]
      · simp [hxy, Nat.lt_asymm hxy] at hab

instance : IsTotal String statusLe :=
  ⟨fun a b => chListLe_total a.data b.data⟩

instance : IsTrans String statusLe :=
  ⟨fun a b c => chListLe_trans a.data b.data c.data⟩

instance : IsAntisymm String statusLe :=
  ⟨fun a b h1 h2 => string_eq_of_data a b (chListLe_antisymm a.data b.data h1 h2)⟩

/-- Model of `statuses.sort()`: sort the collected status names. -/
def sortStatuses (l : List String) : List String := l.insertionSort statusLe

/-- The fixed board file header written by `generate_kanban_board`. -/
def boardHeader : String := "---\nkanban-plugin: basic\n---\n\n"

/-- The issue keys listed under one status column: the keys of the issues
carrying that status, in input order (the HashMap entry's Vec receives
pushes in iteration order). -/
def sectionItems (issues : List JiraIssue) (status : String) : List String :=
  (issues.filter (fun i => i.fields.status.name = status)).map (fun i => i.key)

/-- One rendered status section of the board. -/
def boardSection (issues : List JiraIssue) (status : String) : String :=
  "## " ++ status ++ "\n\n" ++
    String.join ((sectionItems issues status).map
      (fun k => "- [ ] [[Jira Tickets/" ++ k ++ "]]\n")) ++ "\n"

/-- The distinct status names of the issue list (the key set of
`issues_by_status`). -/
def distinctStatuses (issues : List JiraIssue) : List String :=
  (issues.map (fun i => i.fields.status.name)).dedup

/-- The board text produced by `generate_kanban_board`, abstracted over the
order `keyOrder` in which the HashMap yields its keys before the `sort()`
call (any permutation of the distinct statuses). -/
def generate_kanban_board_content (keyOrder : List String) (issues : List JiraIssue) : String :=
  boardHeader ++ String.join ((sortStatuses keyOrder).map (boardSection issues))

/-- The canonical board text (HashMap key order fixed to first-seen order;
by the determinism theorem below the choice is irrelevant). -/
def kanbanBoard (issues : List JiraIssue) : String :=
  generate_kanban_board_content (distinctStatuses issues) issues

theorem sortStatuses_perm_eq (l1 l2 : List String) (h : l1.Perm l2) :
    sortStatuses l1 = sortStatuses l2 := by
  exact List.eq_of_perm_of_sorted
    ((List.perm_insertionSort statusLe l1).trans
      (h.trans (List.perm_insertionSort statusLe l2).symm))
    (List.sorted_insertionSort statusLe l1)
    (List.sorted_insertionSort statusLe l2)

/-- Concrete issues for the board instances: two in status "To Do", one in
status "Done". -/
def issueT : JiraIssue := ⟨"K1", ⟨"A", none, ⟨"To Do"⟩, "2024", none, ⟨"Task"⟩⟩⟩

/-- Concrete issue in status "Done". -/
def issueD : JiraIssue := ⟨"K2", ⟨"B", none, ⟨"Done"⟩, "2024", none, ⟨"Task"⟩⟩⟩

/-- Second concrete issue in status "To Do", listed after the "Done" one. -/
def issueT2 : JiraIssue := ⟨"K3", ⟨"C", none, ⟨"To Do"⟩, "2024", none, ⟨"Task"⟩⟩⟩

/-- C3 counterexample: with one "To Do" issue and one "Done" issue the code
emits the "Done" section first — `statuses.sort()` orders the sections
alphabetically and consults no category-rank table (the deserialized status
carries no category field at all) — contradicting the claimed
"To Do before Done" ordering. -/
theorem claim3_counterexample :
    sortStatuses (distinctStatuses [issueT, issueD]) = ["Done", "To Do"] ∧
    sortStatuses (distinctStatuses [issueT, issueD]) ≠ ["To Do", "Done"] ∧
    kanbanBoard [issueT, issueD] =
      boardHeader ++ ("## Done\n\n- [ ] [[Jira Tickets/K2]]\n\n" ++
        "## To Do\n\n- [ ] [[Jira Tickets/K1]]\n\n") := by
  refine ⟨by decide, by decide, by decide⟩

/-- C3 (amended): status sections are ordered lexicographically (byte-wise)
ascending by status name — not by any category-rank table — and each
status's section lists exactly its member issue keys in input order:
whatever order the HashMap yields its keys in, the sorted section order is
the canonical one and is sorted under the byte order, and the items of a
section are precisely the keys of the issues bearing that status, as a
subsequence of the input key sequence. -/
theorem claim3_board_order (issues : List JiraIssue) (keyOrder : List String)
    (h : keyOrder.Perm (distinctStatuses issues)) :
    List.Sorted statusLe (sortStatuses keyOrder) ∧
    generate_kanban_board_content keyOrder issues = kanbanBoard issues ∧
    (∀ s : String, (sectionItems issues s).Sublist (issues.map (fun i => i.key))) ∧
    (∀ s k : String, k ∈ sectionItems issues s ↔
      ∃ i, i ∈ issues ∧ i.fields.status.name = s ∧ i.key = k) := by
  refine ⟨List.sorted_insertionSort statusLe keyOrder, ?_, ?_, ?_⟩
  · unfold generate_kanban_board_content kanbanBoard
    rw [sortStatuses_perm_eq keyOrder (distinctStatuses issues) h]
    rfl
  · intro s
    simp only [sectionItems]
    exact List.Sublist.map (fun i => i.key) (List.filter_sublist issues)
  · intro s k
    simp only [sectionItems, List.mem_map, List.mem_filter, decide_eq_true_eq]
    constructor
    · rintro ⟨i, ⟨hi, hs⟩, hk⟩
      exact ⟨i, hi, hs, hk⟩
    · rintro ⟨i, hi, hs, hk⟩
      exact ⟨i, ⟨hi, hs⟩, hk⟩

/-- C3 witness: the amended statement evaluated at the concrete three-issue
board with the HashMap yielding keys in the order ["Done", "To Do"]. -/
theorem claim3_witness :
    List.Sorted statusLe (sortStatuses ["Done", "To Do"]) ∧
    generate_kanban_board_content ["Done", "To Do"] [issueT, issueD, issueT2] =
      kanbanBoard [issueT, issueD, issueT2] := by
  have h := claim3_board_order [issueT, issueD, issueT2] ["Done", "To Do"] (by decide)
  exact ⟨h.1, h.2.1⟩

/-- C9: the rendered board text does not depend on the HashMap key
iteration order: any two enumerations of the distinct statuses produce
byte-identical board text, so two runs of the builder on the same issue
sequence agree. -/
theorem claim9_board_deterministic (issues : List JiraIssue) (ord1 ord2 : List String)
    (h1 : ord1.Perm (distinctStatuses issues)) (h2 : ord2.Perm (distinctStatuses issues)) :
    generate_kanban_board_content ord1 issues = generate_kanban_board_content ord2 issues := by
  unfold generate_kanban_board_content
  rw [sortStatuses_perm_eq ord1 ord2 (h1.trans h2.symm)]

/-- C9 witness: two opposite key enumerations of the concrete board yield
the same board text. -/
theorem claim9_witness :
    generate_kanban_board_content ["To Do", "Done"] [issueT, issueD, issueT2] =
      generate_kanban_board_content ["Done", "To Do"] [issueT, issueD, issueT2] :=
  claim9_board_deterministic [issueT, issueD, issueT2] ["To Do", "Done"] ["Done", "To Do"]
    (by decide) (by decide)

/- ------------------------------------------------------------------ -/
/- The writes performed by one run of main.                            -/
/- ------------------------------------------------------------------ -/

/-- Path of an issue's note file, as path segments. -/
def notePath (config : Config) (key : String) : List String :=
  [config.obsidian_vault_path, "Jira Tickets", key ++ ".md"]

/-- Fixed path of the board file, as path segments. -/
def boardPath (config : Config) : List String :=
  [config.obsidian_vault_path, "My Jira Board.md"]

/-- The file writes performed by a run of `main` whose fetch succeeded and
returned `issues`, given the pre-run disk content of each issue's note file
(`prior`, keyed by issue key): `main` returns early on an empty issue list,
otherwise it writes every note and then the board file. -/
def syncWrites (config : Config) (issues : List JiraIssue) (prior : String → Option String) :
    List (List String × String) :=
  if issues.isEmpty then []
  else (issues.map (fun i => (notePath config i.key, update_issue_content config i (prior i.key))))
    ++ [(boardPath config, kanbanBoard issues)]

/-- C8 counterexample: on a successful fetch returning no issues, `main`
returns early ("No issues found. Exiting.") and performs no writes at all —
in particular the board file at the fixed path is not regenerated,
contradicting the claim's "for every returned issue list including the
empty list". -/
theorem claim8_counterexample :
    syncWrites cfgEx [] (fun _ => none) = [] ∧
    ((syncWrites cfgEx [] (fun _ => none)).map Prod.fst).contains (boardPath cfgEx) = false := by
  refine ⟨rfl, rfl⟩

/-- C8 (amended): on every run whose fetch succeeds with a non-empty issue
list, the board file at the fixed path vault/"My Jira Board.md" is written,
fully regenerated from the current issue list, and it is the last write of
the run. -/
theorem claim8_board_written (config : Config) (issues : List JiraIssue)
    (prior : String → Option String) (h : issues ≠ []) :
    (boardPath config, kanbanBoard issues) ∈ syncWrites config issues prior ∧
    (syncWrites config issues prior).getLast? = some (boardPath config, kanbanBoard issues) := by
  have hne : issues.isEmpty = false := by
    cases issues with
    | nil => cases h rfl
    | cons a l => rfl
  unfold syncWrites
  rw [hne]
  simp only [Bool.false_eq_true, if_false]
  constructor
  · exact List.mem_append_right _ (List.mem_singleton.mpr rfl)
  · exact List.getLast?_concat _

/-- C8 witness: the amended statement evaluated at a concrete one-issue
run. -/
theorem claim8_witness :
    (boardPath cfgEx, kanbanBoard [issueT]) ∈ syncWrites cfgEx [issueT] (fun _ => none) :=
  (claim8_board_written cfgEx [issueT] (fun _ => none) (List.cons_ne_nil issueT [])).1

/- ------------------------------------------------------------------ -/
/- Extraction totality and the two placeholders (claims C6, C10).      -/
/- ------------------------------------------------------------------ -/

/-- C6: description rendering is total and never empty: for an absent
description it yields the "No description." placeholder, and for every
present rich-text tree the extractor yields a non-empty string, falling
back to the "No description provided." placeholder exactly when the
accumulated text trims to empty. -/
theorem claim6_extraction_total :
    (∀ d : Option JiraADF, renderDescription d ≠ "") ∧
    (∀ adf : JiraADF, rustTrim (adfRawText adf) = "" →
      extract_text_from_adf adf = "No description provided.") := by
  constructor
  · intro d
    cases d with
    | none =>
      simp only [renderDescription]
      decide
    | some adf =>
      simp only [renderDescription, extract_text_from_adf]
      by_cases h : rustTrim (adfRawText adf) = ""
      · rw [if_pos h]
        decide
      · rw [if_neg h]
        exact h
  · intro adf h
    simp only [extract_text_from_adf, if_pos h]

/-- C6 witness: the totality statement evaluated at the absent description
and at the concrete empty document, whose accumulated text trims to
empty. -/
theorem claim6_witness :
    renderDescription none ≠ "" ∧
    renderDescription (some ⟨some []⟩) ≠ "" ∧
    extract_text_from_adf ⟨some []⟩ = "No description provided." :=
  ⟨claim6_extraction_total.1 none,
   claim6_extraction_total.1 (some ⟨some []⟩),
   claim6_extraction_total.2 ⟨some []⟩ (by decide)⟩

/-- C10: for an issue whose description field is absent, the rendered
note's Description section contains exactly "No description.", which
differs from the "No description provided." placeholder that extraction
produces for a present tree whose accumulated text trims to empty. -/
theorem claim10_two_placeholders
    (config : Config) (issue : JiraIssue) (prior : Option String)
    (h : issue.fields.description = none) :
    update_issue_content config issue prior =
      noteBeforeDescription config issue ++ ("## Description\nNo description.\n\n" ++
        (safe_area_delimiter ++ ("\n" ++ userNotesOf prior))) ∧
    "No description." ≠ "No description provided." ∧
    (∀ adf : JiraADF, rustTrim (adfRawText adf) = "" →
      renderDescription (some adf) = "No description provided.") := by
  refine ⟨?_, by decide, ?_⟩
  · unfold update_issue_content machineRegionStr
    rw [h]
    simp only [renderDescription]
    simp [string_append_assoc]
  · intro adf hempty
    simp only [renderDescription, extract_text_from_adf, if_pos hempty]

/-- C10 witness: the statement evaluated at the concrete issue with absent
description. -/
theorem claim10_witness :
    update_issue_content cfgEx issueEx none =
      noteBeforeDescription cfgEx issueEx ++ ("## Description\nNo description.\n\n" ++
        (safe_area_delimiter ++ ("\n" ++ userNotesOf none))) ∧
    "No description." ≠ "No description provided." := by
  have h := claim10_two_placeholders cfgEx issueEx none rfl
  exact ⟨h.1, h.2.1⟩

/- ------------------------------------------------------------------ -/
/- Markup translation (claim C4). No markup-translation code exists    -/
/- under src/, so the operation is modelled from the specification.    -/
/- ------------------------------------------------------------------ -/

/-- Left curly brace character (written by code point to keep every brace
out of the string literals of this file). -/
def lbrace : Char := Char.ofNat 123

/-- Right curly brace character. -/
def rbrace : Char := Char.ofNat 125

/-- Modelled from the spec: split a text into its lines at newline
characters (the heading rule of the translator is line-anchored). -/
def splitNl : List Char → List (List Char)
  | [] => [[]]
  | c :: rest =>
    match splitNl rest with
    | [] => [[c]]
    | l :: ls => if c = '\n' then [] :: l :: ls else (c :: l) :: ls

/-- Modelled from the spec: rejoin lines with newline separators. -/
def joinNl : List (List Char) → List Char
  | [] => []
  | [l] => l
  | l :: l2 :: ls => l ++ '\n' :: joinNl (l2 :: ls)

/-- A line starting with one of the heading markers "h1. ", "h2. ",
"h3. ". -/
def headingMarked (l : List Char) : Prop :=
  l.take 4 = "h1. ".data ∨ l.take 4 = "h2. ".data ∨ l.take 4 = "h3. ".data

/-- Modelled from the spec (rule 1): a line-anchored heading marker `h1.`,
`h2.`, or `h3.` at the start of a line becomes `#`, `##`, `###`; other
lines pass through. -/
def headingFixLine (l : List Char) : List Char :=
  if l.take 4 = "h1. ".data then '#' :: ' ' :: l.drop 4
  else if l.take 4 = "h2. ".data then '#' :: '#' :: ' ' :: l.drop 4
  else if l.take 4 = "h3. ".data then '#' :: '#' :: '#' :: ' ' :: l.drop 4
  else l

instance (l : List Char) : Decidable (headingMarked l) := by
  unfold headingMarked
  infer_instance

/-- Heading rule over a whole text: fix every line. -/
def headingRuleL (l : List Char) : List Char :=
  joinNl ((splitNl l).map headingFixLine)

/-- Modelled from the spec (rule 2): single-asterisk emphasis spanning a
non-empty run of non-newline, non-asterisk characters becomes
double-asterisk bold; anything else is copied. The fuel argument bounds
the scan; `emphRuleL` supplies the list length, which suffices because
every step consumes at least one character. -/
def emphGo : Nat → List Char → List Char
  | 0, l => l
  | _ + 1, [] => []
  | n + 1, c :: rest =>
    if c = '*' then
      let run := rest.takeWhile (fun d => !(d == '*' || d == '\n'))
      let rest2 := rest.drop run.length
      if rest2.head? = some '*' ∧ run ≠ [] then
        '*' :: '*' :: (run ++ '*' :: '*' :: emphGo n rest2.tail)
      else c :: emphGo n rest
    else c :: emphGo n rest

/-- Emphasis rule over a whole text. -/
def emphRuleL (l : List Char) : List Char := emphGo l.length l

/-- Modelled from the spec (rule 3): `{code}`, `{code:<lang>}` and
`{noformat}` become an opening triple-backtick fence, with the language
appended for `{code:<lang>}`; only opening fences are rewritten. -/
def codeGo : Nat → List Char → List Char
  | 0, l => l
  | _ + 1, [] => []
  | n + 1, c :: rest =>
    if c = lbrace then
      if rest.take 5 = ("code".data ++ [rbrace]) then
        "```".data ++ codeGo n (rest.drop 5)
      else if rest.take 5 = "code:".data then
        let lang := (rest.drop 5).takeWhile (fun d => !(d == rbrace || d == '\n'))
        let rest2 := (rest.drop 5).drop lang.length
        if rest2.head? = some rbrace then
          "```".data ++ (lang ++ codeGo n rest2.tail)
        else c :: codeGo n rest
      else if rest.take 9 = ("noformat".data ++ [rbrace]) then
        "```".data ++ codeGo n (rest.drop 9)
      else c :: codeGo n rest
    else c :: codeGo n rest

/-- Code-fence rule over a whole text. -/
def codeRuleL (l : List Char) : List Char := codeGo l.length l

/-- Modelled from the spec (rule 4): piped links `[label|url]` become
Markdown links `[label](url)`; brackets without a pipe are untouched. -/
def linkGo : Nat → List Char → List Char
  | 0, l => l
  | _ + 1, [] => []
  | n + 1, c :: rest =>
    if c = '[' then
      let label := rest.takeWhile (fun d => !(d == '|' || d == ']' || d == '\n'))
      let rest1 := rest.drop label.length
      if rest1.head? = some '|' then
        let url := rest1.tail.takeWhile (fun d => !(d == ']' || d == '\n'))
        let rest2 := rest1.tail.drop url.length
        if rest2.head? = some ']' then
          '[' :: (label ++ ']' :: '(' :: (url ++ ')' :: linkGo n rest2.tail))
        else c :: linkGo n rest
      else c :: linkGo n rest
    else c :: linkGo n rest

/-- Link rule over a whole text. -/
def linkRuleL (l : List Char) : List Char := linkGo l.length l

/-- Modelled from the spec: the full translator applies the rules in the
canonical order — headings, then emphasis, then code fences, then links.
It is a total function by construction. (The spec calls this operation
`translate`; that name is taken by Mathlib, hence the longer one.) -/
def translateMarkup (s : String) : String :=
  ⟨linkRuleL (codeRuleL (emphRuleL (headingRuleL s.data)))⟩

theorem splitNl_ne_nil : ∀ l : List Char, splitNl l ≠ [] := by
  intro l h
  cases l with
  | nil => cases h
  | cons c rest =>
    cases hsp : splitNl rest with
    | nil =>
      simp only [splitNl, hsp] at h
      cases h
    | cons a as =>
      simp only [splitNl, hsp] at h
      by_cases hc : c = '\n'
      · rw [if_pos hc] at h; cases h
      · rw [if_neg hc] at h; cases h

theorem joinNl_splitNl : ∀ l : List Char, joinNl (splitNl l) = l := by
  intro l
  induction l with
  | nil => rfl
  | cons c rest ih =>
    cases hs : splitNl rest with
    | nil => exact absurd hs (splitNl_ne_nil rest)
    | cons L Ls =>
      rw [hs] at ih
      by_cases hc : c = '\n'
      · subst hc
        simp only [splitNl, hs, if_pos rfl]
        show [] ++ '\n' :: joinNl (L :: Ls) = '\n' :: rest
        rw [List.nil_append, ih]
      · simp only [splitNl, hs, if_neg hc]

        cases Ls with
        | nil =>
          show c :: L = c :: rest
          rw [show L = rest from ih]
        | cons L2 Ls2 =>
          show (c :: L) ++ '\n' :: joinNl (L2 :: Ls2) = c :: rest
          exact congrArg (fun x => c :: x) ih

theorem map_eq_self_of_forall {α : Type} (f : α → α) :
    ∀ L : List α, (∀ x ∈ L, f x = x) → L.map f = L := by
  intro L
  induction L with
  | nil => intro _; rfl
  | cons a as ih =>
    intro h
    simp only [List.map]
    rw [h a (List.mem_cons_self a as), ih (fun x hx => h x (List.mem_cons_of_mem a hx))]

theorem headingFixLine_id (l : List Char) (h : ¬ headingMarked l) : headingFixLine l = l := by
  unfold headingMarked at h
  push_neg at h
  unfold headingFixLine
  rw [if_neg h.1, if_neg h.2.1, if_neg h.2.2]

theorem headingRuleL_id (l : List Char) (h : ∀ ln ∈ splitNl l, ¬ headingMarked ln) :
    headingRuleL l = l := by
  unfold headingRuleL
  rw [map_eq_self_of_forall headingFixLine (splitNl l)
    (fun ln hln => headingFixLine_id ln (h ln hln))]
  exact joinNl_splitNl l

theorem emphGo_id (n : Nat) : ∀ l : List Char, '*' ∉ l → emphGo n l = l := by
  induction n with
  | zero => intro l _; rfl
  | succ n ih =>
    intro l hl
    cases l with
    | nil => rfl
    | cons c rest =>
      simp only [List.mem_cons, not_or] at hl
      simp only [emphGo]
      rw [if_neg (fun h => hl.1 h.symm)]
      rw [ih rest hl.2]

theorem codeGo_id (n : Nat) : ∀ l : List Char, lbrace ∉ l → codeGo n l = l := by
  induction n with
  | zero => intro l _; rfl
  | succ n ih =>
    intro l hl
    cases l with
    | nil => rfl
    | cons c rest =>
      simp only [List.mem_cons, not_or] at hl
      simp only [codeGo]
      rw [if_neg (fun h => hl.1 h.symm)]
      rw [ih rest hl.2]

theorem linkGo_id (n : Nat) : ∀ l : List Char, '[' ∉ l → linkGo n l = l := by
  induction n with
  | zero => intro l _; rfl
  | succ n ih =>
    intro l hl
    cases l with
    | nil => rfl
    | cons c rest =>
      simp only [List.mem_cons, not_or] at hl
      simp only [linkGo]
      rw [if_neg (fun h => hl.1 h.symm)]
      rw [ih rest hl.2]

/-- C4: the modelled translator realizes the spec's examples — heading,
bold, code fence with language, piped link — each rule is the identity on
texts where its pattern does not occur, and the operation is a total pure
function (a Lean function by construction). -/
theorem claim4_markup_translator :
    translateMarkup "h1. Title" = "# Title" ∧
    translateMarkup "*bold*" = "**bold**" ∧
    translateMarkup "\x7bcode:rust\x7d" = "```rust" ∧
    translateMarkup "[Label|http://x]" = "[Label](http://x)" ∧
    (∀ l : List Char, (∀ ln ∈ splitNl l, ¬ headingMarked ln) → headingRuleL l = l) ∧
    (∀ l : List Char, '*' ∉ l → emphRuleL l = l) ∧
    (∀ l : List Char, lbrace ∉ l → codeRuleL l = l) ∧
    (∀ l : List Char, '[' ∉ l → linkRuleL l = l) := by
  refine ⟨by decide, by decide, by decide, by decide, ?_, ?_, ?_, ?_⟩
  · exact headingRuleL_id
  · intro l h
    exact emphGo_id l.length l h
  · intro l h
    exact codeGo_id l.length l h
  · intro l h
    exact linkGo_id l.length l h

/-- C4 witness: the no-op branches of the translator evaluated on a
concrete pattern-free text. -/
theorem claim4_witness :
    headingRuleL "plain text".data = "plain text".data ∧
    emphRuleL "plain text".data = "plain text".data ∧
    codeRuleL "plain text".data = "plain text".data ∧
    linkRuleL "plain text".data = "plain text".data := by
  have h := claim4_markup_translator
  exact ⟨h.2.2.2.2.1 _ (by decide), h.2.2.2.2.2.1 _ (by decide),
    h.2.2.2.2.2.2.1 _ (by decide), h.2.2.2.2.2.2.2 _ (by decide)⟩
